import Mathlib

/-!
Verification of the streaming run-length-encoding codec in
`iepass-core/src/rle.rs`.

Bytes are modelled as `Nat` (all values arising in the Rust code are `u8`,
i.e. `< 256`; the arithmetic performed on them — `0x80 | (len - 1)`,
`len - 2`, `(len & !0x80) + 1` — never overflows under the invariants
proved below, so `Nat` agrees with `u8` at every use site).

The encoder's `Literal` accumulator is a 130-byte array of which only the
first `len` cells are ever read or written; it is modelled as the list of
those `len` meaningful bytes, so `len` is `bytes.length`.  The sink (the
`W : Write` parameter) is modelled as the list of bytes written so far;
a second, sink-generic model (`write1F`) with a fallible `write_all` is
given further down for the failure-ordering analysis of rule 4.
-/

/-- Encoder accumulator, mirroring `enum WriteState` in `rle.rs`:
`Repeat { len, byte }` and `Literal { len, bytes }` (the list holds the
meaningful `len`-byte prefix of the 130-byte array).  The same type also
serves as the chunk-level view of the wire format (a parsed chunk is
exactly a flushed accumulator). -/
inductive WriteState where
  | Repeat (len : Nat) (byte : Nat)
  | Literal (bytes : List Nat)
deriving DecidableEq, Repr

/-- Encoder: the sink `writer` is modelled as the list of bytes written so
far (`out`), plus the pending accumulator `state : Option WriteState`. -/
structure Encoder where
  state : Option WriteState
  out : List Nat
deriving DecidableEq, Repr

/-- The bytes `Encoder::write_state` emits for one accumulator value:
`write_all(&[0x80 | len - 1, byte])` for a repeat, and
`write_all(&[len - 2])` followed by `write_all(&bytes[0..len])` for a
literal. -/
def chunkBytes : WriteState → List Nat
  | .Repeat len byte => [128 ||| (len - 1), byte]
  | .Literal bytes => (bytes.length - 2) :: bytes

/-- `write_state` on an empty accumulator writes nothing. -/
def flushBytes : Option WriteState → List Nat
  | none => []
  | some w => chunkBytes w

/-- `Encoder::write_state`: `self.state.take()` followed by writing the
chunk's framing to the sink. -/
def Encoder.write_state (e : Encoder) : Encoder :=
  ⟨none, e.out ++ flushBytes e.state⟩

/-- One iteration of the `for &new_byte in buf` loop of
`<Encoder as Write>::write`, with the six match arms in source order:
new byte / append to repeat / singleton repeat to literal /
split literal and flush (rule 4) / append to literal / flush and restart. -/
def write1 (e : Encoder) (b : Nat) : Encoder :=
  match e.state with
  | none => ⟨some (.Repeat 1 b), e.out⟩
  | some (.Repeat len byte) =>
    if len < 128 ∧ byte = b then
      ⟨some (.Repeat (len + 1) byte), e.out⟩
    else if len = 1 ∧ byte ≠ b then
      ⟨some (.Literal [byte, b]), e.out⟩
    else
      ⟨some (.Repeat 1 b), e.out ++ chunkBytes (.Repeat len byte)⟩
  | some (.Literal bytes) =>
    if 2 ≤ bytes.length ∧ bytes.getLast? = some b then
      let flushed : WriteState :=
        if 2 < bytes.length then .Literal bytes.dropLast
        else .Repeat 1 (bytes.headD 0)
      ⟨some (.Repeat 2 b), e.out ++ chunkBytes flushed⟩
    else if bytes.length < 129 then
      ⟨some (.Literal (bytes ++ [b])), e.out⟩
    else
      ⟨some (.Repeat 1 b), e.out ++ chunkBytes (.Literal bytes)⟩

/-- `<Encoder as Write>::write`: the per-byte loop over the buffer. -/
def Encoder.write (e : Encoder) (buf : List Nat) : Encoder :=
  buf.foldl write1 e

/-- A freshly constructed encoder (`Encoder::new`): empty accumulator,
nothing written. -/
def Encoder.new : Encoder := ⟨none, []⟩

/-- `Encoder::finalize`: flush the pending accumulator and hand back the
sink, i.e. the complete list of bytes written. -/
def Encoder.finalize (e : Encoder) : List Nat :=
  e.out ++ flushBytes e.state

/-- Feeding a whole input to a fresh encoder and finalizing. -/
def encode (X : List Nat) : List Nat :=
  (Encoder.new.write X).finalize

/-- Data represented by one chunk / accumulator value. -/
def chunkData : WriteState → List Nat
  | .Repeat len byte => List.replicate len byte
  | .Literal bytes => bytes

/-- Data represented by an optional accumulator. -/
def stateData : Option WriteState → List Nat
  | none => []
  | some w => chunkData w

/-- Well-formedness of an in-flight accumulator (and of an emitted chunk):
repeats carry `1 ≤ count ≤ 128`, literals `2 ≤ len ≤ 129`. -/
def WSInv : Option WriteState → Prop
  | none => True
  | some (.Repeat len _) => 1 ≤ len ∧ len ≤ 128
  | some (.Literal bytes) => 2 ≤ bytes.length ∧ bytes.length ≤ 129

/-- Well-formedness of a single chunk. -/
def ChunkWF (c : WriteState) : Prop := WSInv (some c)

/-- Fueled parser for the wire format, chunk-granular.  One step mirrors
`Decoder::read_state`: a control byte `c < 0x80` announces a literal of
`c + 2` payload bytes, `c ≥ 0x80` a repeat of `(c & 0x7F) + 1` copies of
the next byte; a stream ending before the announced payload does not
parse.  Fuel only bounds the recursion; `l.length` is always enough. -/
def parseChunksF : Nat → List Nat → Option (List WriteState)
  | _, [] => some []
  | 0, _ :: _ => none
  | fuel + 1, c :: rest =>
    if c < 128 then
      if c + 2 ≤ rest.length then
        (parseChunksF fuel (rest.drop (c + 2))).map
          (fun cs => WriteState.Literal (rest.take (c + 2)) :: cs)
      else none
    else
      match rest with
      | [] => none
      | b :: rest' =>
        (parseChunksF fuel rest').map
          (fun cs => WriteState.Repeat ((c &&& 127) + 1) b :: cs)

/-- Chunk-level parse of an encoded stream (with always-sufficient fuel). -/
def parseChunks (l : List Nat) : Option (List WriteState) :=
  parseChunksF l.length l

/-- Concatenated data of a list of chunks. -/
def dataOf (cs : List WriteState) : List Nat :=
  (cs.map chunkData).flatten

/-- `Emits Δ cs` says the byte string `Δ` is, in any context, the frame
encoding of exactly the chunk list `cs`. -/
def Emits (Δ : List Nat) (cs : List WriteState) : Prop :=
  ∀ rest, parseChunks (Δ ++ rest) = (parseChunks rest).map (fun tl => cs ++ tl)

/-- Decoder cursor, mirroring `enum ReadState` in `rle.rs`:
`Repeat { len, byte }` and `Literal { len, pos, bytes }` (again the list
holds the meaningful `len`-byte prefix of the 130-byte array). -/
inductive ReadState where
  | Repeat (len : Nat) (byte : Nat)
  | Literal (len : Nat) (pos : Nat) (bytes : List Nat)
deriving DecidableEq, Repr

/-- Decoder: the source `reader` is modelled as the list of bytes not yet
consumed (`input`), plus the cursor `state : Option ReadState`. -/
structure Decoder where
  input : List Nat
  state : Option ReadState
deriving DecidableEq, Repr

/-- The only fault a decoder over an in-memory source can raise: the
`panic!("Unexpected EOF")` in `Decoder::read_state`, reached when a
control byte was read but its mandatory payload bytes are missing.  It is
a process abort in the Rust code, not a catchable error value. -/
inductive ReadFault where
  | panicUnexpectedEof
deriving DecidableEq, Repr

/-- `Decoder::read_state`: read one control byte (clean EOF if the source
is already exhausted, leaving the cursor empty), then read the mandatory
payload — `(c & !0x80) + 1` repeats of one following byte if the top bit
is set, `c + 2` literal bytes otherwise — panicking if the source ends
before the payload is complete.  Returns the new cursor and the remaining
input. -/
def read_state (input : List Nat) : Except ReadFault (Option ReadState × List Nat) :=
  match input with
  | [] => .ok (none, [])
  | c :: rest =>
    if c < 128 then
      let len := c + 2
      if len ≤ rest.length then
        .ok (some (.Literal len 0 (rest.take len)), rest.drop len)
      else .error .panicUnexpectedEof
    else
      match rest with
      | [] => .error .panicUnexpectedEof
      | b :: rest' => .ok (some (.Repeat ((c &&& 127) + 1) b), rest')

/-- The delivery half of `<Decoder as Read>::read`: drain
`min(buf.len(), remaining)` bytes from the cursor into the caller's
buffer, clearing the cursor once it is exhausted.  `cap` is `buf.len()`;
the returned list is the prefix of `buf` that was written. -/
def Decoder.readCore (st : Option ReadState) (inp : List Nat) (cap : Nat) :
    List Nat × Decoder :=
  match st with
  | none => ([], ⟨inp, none⟩)
  | some (.Literal len pos bytes) =>
    let tbw := min cap (len - pos)
    let out := (bytes.drop pos).take tbw
    if len ≤ pos + tbw then (out, ⟨inp, none⟩)
    else (out, ⟨inp, some (.Literal len (pos + tbw) bytes)⟩)
  | some (.Repeat len byte) =>
    let tbw := min cap len
    let out := List.replicate tbw byte
    if len ≤ tbw then (out, ⟨inp, none⟩)
    else (out, ⟨inp, some (.Repeat (len - tbw) byte)⟩)

/-- `<Decoder as Read>::read`: parse a fresh chunk when the cursor is
empty, then deliver from the cursor. -/
def Decoder.read (d : Decoder) (cap : Nat) : Except ReadFault (List Nat × Decoder) :=
  match d.state with
  | some st => .ok (Decoder.readCore (some st) d.input cap)
  | none =>
    match read_state d.input with
    | .error e => .error e
    | .ok (st, inp) => .ok (Decoder.readCore st inp cap)

/-- A freshly constructed decoder (`Decoder::new`) over an in-memory
source. -/
def Decoder.new (input : List Nat) : Decoder := ⟨input, none⟩

/-- The caller's drain loop (as in the crate's round-trip test): pull with
capacity `caps i` on the i-th call until a call returns 0 bytes,
concatenating everything received.  `none` on a decoder fault or if
`fuel` calls did not reach the end. -/
def drainFuel : Nat → (Nat → Nat) → Nat → Decoder → Option (List Nat)
  | 0, _, _, _ => none
  | fuel + 1, caps, i, d =>
    match d.read (caps i) with
    | .error _ => none
    | .ok ([], _) => some []
    | .ok (out, d') => (drainFuel fuel caps (i + 1) d').map (fun tl => out ++ tl)

/-- Cursor well-formedness: a pending repeat has at least one byte left, a
pending literal has `pos < len` and carries exactly `len` bytes. -/
def RSInv : Option ReadState → Prop
  | none => True
  | some (.Repeat len _) => 1 ≤ len
  | some (.Literal len pos bytes) => pos < len ∧ bytes.length = len

/-- Decoder well-formedness. -/
def DecInv (d : Decoder) : Prop := RSInv d.state

/-- Bytes still owed by the cursor. -/
def pendData : Option ReadState → List Nat
  | none => []
  | some (.Repeat len byte) => List.replicate len byte
  | some (.Literal _ pos bytes) => bytes.drop pos

/-- The full remaining yield of a decoder: what the cursor still owes plus
the decode of the unread input (defined only when the input parses). -/
def dDen (d : Decoder) : Option (List Nat) :=
  (parseChunks d.input).map (fun cs => pendData d.state ++ dataOf cs)

/-- `Encoder::write_state` over an arbitrary sink: the sink is any state
type `σ` with a `write_all` function `w` that either accepts a byte slice
(returning the new sink state) or fails (`none`).  As in the Rust code,
`self.state.take()` happens before any write, so the accumulator
component of the result is `none` on both the success and the failure
path; the failure branch also reports the sink state reached so far (a
literal performs two `write_all` calls). -/
def write_stateF {σ : Type} (w : σ → List Nat → Option σ) (st : Option WriteState) (s : σ) :
    Except (Option WriteState × σ) (Option WriteState × σ) :=
  match st with
  | none => .ok (none, s)
  | some (.Repeat len byte) =>
    match w s [128 ||| (len - 1), byte] with
    | some s' => .ok (none, s')
    | none => .error (none, s)
  | some (.Literal bytes) =>
    match w s [bytes.length - 2] with
    | none => .error (none, s)
    | some s1 =>
      match w s1 bytes with
      | none => .error (none, s1)
      | some s2 => .ok (none, s2)

/-- One loop iteration of `<Encoder as Write>::write` over an arbitrary
fallible sink, mirroring the source exactly: in rules 4 and 6 the
accumulator is first replaced by the chunk to flush (in rule 4 the
shrunk literal, or the `Repeat{1, bytes[0]}` it degenerates to), then
`write_state` is attempted, and only on success is the fresh
`Repeat` accumulator installed; a failed flush aborts with the
accumulator already taken (`?` propagation). -/
def write1F {σ : Type} (w : σ → List Nat → Option σ) (st : Option WriteState) (s : σ)
    (b : Nat) : Except (Option WriteState × σ) (Option WriteState × σ) :=
  match st with
  | none => .ok (some (.Repeat 1 b), s)
  | some (.Repeat len byte) =>
    if len < 128 ∧ byte = b then .ok (some (.Repeat (len + 1) byte), s)
    else if len = 1 ∧ byte ≠ b then .ok (some (.Literal [byte, b]), s)
    else
      match write_stateF w (some (.Repeat len byte)) s with
      | .error r => .error r
      | .ok (_, s') => .ok (some (.Repeat 1 b), s')
  | some (.Literal bytes) =>
    if 2 ≤ bytes.length ∧ bytes.getLast? = some b then
      match write_stateF w (some (if 2 < bytes.length then .Literal bytes.dropLast
          else .Repeat 1 (bytes.headD 0))) s with
      | .error r => .error r
      | .ok (_, s') => .ok (some (.Repeat 2 b), s')
    else if bytes.length < 129 then .ok (some (.Literal (bytes ++ [b])), s)
    else
      match write_stateF w (some (.Literal bytes)) s with
      | .error r => .error r
      | .ok (_, s') => .ok (some (.Repeat 1 b), s')

/-- The infallible list sink: `write_all` always succeeds and appends. -/
def listSink (s : List Nat) (l : List Nat) : Option (List Nat) := some (s ++ l)

/-- 130 bytes with no two adjacent bytes equal: 0,1,0,1,... -/
def alt130 : List Nat := (List.range 130).map (fun i => i % 2)

/-- Chunk-kind discriminator. -/
def chunkIsLit : WriteState → Bool
  | .Literal _ => true
  | .Repeat _ _ => false

theorem wsInv_new : WSInv Encoder.new.state := trivial

theorem wsInv_write1 (s : Option WriteState) (out : List Nat) (b : Nat)
    (h : WSInv s) : WSInv (write1 ⟨s, out⟩ b).state := by
  match s with
  | none => simp [write1, WSInv]
  | some (.Repeat len byte) =>
    simp only [write1]
    by_cases h1 : len < 128 ∧ byte = b
    · simp [h1, WSInv]; omega
    · by_cases h2 : len = 1 ∧ byte ≠ b
      · simp [h1, h2, WSInv]
      · simp [h1, h2, WSInv]
  | some (.Literal bytes) =>
    simp only [write1, WSInv] at h ⊢
    by_cases h1 : 2 ≤ bytes.length ∧ bytes.getLast? = some b
    · simp [h1, WSInv]
    · by_cases h2 : bytes.length < 129
      · simp [h1, h2, WSInv]; omega
      · simp [h1, h2, WSInv]

theorem parseChunksF_mono : ∀ (fuel fuel' : Nat) (l : List Nat),
    l.length ≤ fuel → l.length ≤ fuel' → parseChunksF fuel l = parseChunksF fuel' l := by
  intro fuel
  induction fuel with
  | zero =>
    intro fuel' l h _
    have : l = [] := List.length_eq_zero.mp (Nat.le_zero.mp h)
    subst this
    cases fuel' <;> rfl
  | succ f ih =>
    intro fuel' l h h'
    match l with
    | [] => cases fuel' <;> rfl
    | c :: rest =>
      match fuel' with
      | 0 => exact absurd h' (by simp)
      | f' + 1 =>
        simp only [parseChunksF]
        simp only [List.length_cons] at h h'
        by_cases hc : c < 128
        · simp only [hc, if_true]
          by_cases hlen : c + 2 ≤ rest.length
          · simp only [hlen, if_true]
            rw [ih f' (rest.drop (c + 2))
              (by simp; omega) (by simp; omega)]
          · simp [hlen]
        · simp only [hc, if_false]
          match rest with
          | [] => rfl
          | b :: rest' =>
            simp only [List.length_cons] at h h'
            show (parseChunksF f rest').map _ = (parseChunksF f' rest').map _
            rw [ih f' rest' (by omega) (by omega)]

theorem parseChunks_nil : parseChunks [] = some [] := rfl

theorem parseChunks_cons (c : Nat) (rest : List Nat) :
    parseChunks (c :: rest) =
      if c < 128 then
        if c + 2 ≤ rest.length then
          (parseChunks (rest.drop (c + 2))).map
            (fun cs => WriteState.Literal (rest.take (c + 2)) :: cs)
        else none
      else
        match rest with
        | [] => none
        | b :: rest' =>
          (parseChunks rest').map
            (fun cs => WriteState.Repeat ((c &&& 127) + 1) b :: cs) := by
  show parseChunksF (rest.length + 1) (c :: rest) = _
  simp only [parseChunksF]
  by_cases hc : c < 128
  · simp only [hc, if_true]
    by_cases hlen : c + 2 ≤ rest.length
    · simp only [hlen, if_true]
      rw [parseChunksF_mono rest.length (rest.drop (c + 2)).length (rest.drop (c + 2))
        (by simp) (by simp)]
      rfl
    · simp [hlen]
  · simp only [hc, if_false]
    match rest with
    | [] => rfl
    | b :: rest' =>
      simp only [List.length_cons]
      rw [parseChunksF_mono (rest'.length + 1) rest'.length rest' (by omega) (by omega)]
      rfl

theorem dataOf_nil : dataOf [] = [] := rfl

theorem dataOf_append (a b : List WriteState) :
    dataOf (a ++ b) = dataOf a ++ dataOf b := by
  simp [dataOf]

theorem emits_nil : Emits [] [] := by
  intro rest
  cases hh : parseChunks rest <;> simp [hh]

theorem emits_append {a b : List Nat} {ca cb : List WriteState}
    (ha : Emits a ca) (hb : Emits b cb) : Emits (a ++ b) (ca ++ cb) := by
  intro rest
  rw [List.append_assoc, ha, hb]
  cases hh : parseChunks rest <;> simp [hh]

theorem lor_and_facts : ∀ x : Nat, x < 128 → (128 ||| x) &&& 127 = x ∧ ¬(128 ||| x < 128) := by
  have h : ∀ x ∈ Finset.range 128, ((128 ||| x) &&& 127 = x ∧ ¬(128 ||| x < 128)) := by
    set_option maxRecDepth 4000 in decide
  intro x hx
  exact h x (Finset.mem_range.mpr hx)

theorem emits_chunk {c : WriteState} (h : ChunkWF c) : Emits (chunkBytes c) [c] := by
  intro rest
  match c with
  | .Repeat len byte =>
    obtain ⟨h1, h2⟩ := h
    have hlt : len - 1 < 128 := by omega
    obtain ⟨hand, hor⟩ := lor_and_facts (len - 1) hlt
    simp only [chunkBytes, List.cons_append, List.singleton_append]
    rw [parseChunks_cons]
    simp only [hor, if_false, hand]
    have h3 : len - 1 + 1 = len := by omega
    rw [h3]
    cases hh : parseChunks rest <;> simp [hh]
  | .Literal bytes =>
    obtain ⟨h1, h2⟩ := h
    simp only [chunkBytes, List.cons_append]
    rw [parseChunks_cons]
    have hc : bytes.length - 2 < 128 := by omega
    have hlen2 : bytes.length - 2 + 2 = bytes.length := by omega
    simp only [hc, if_true, hlen2]
    have hle : bytes.length ≤ (bytes ++ rest).length := by simp
    simp only [hle, if_true]
    rw [List.take_append_of_le_length (Nat.le_refl _), List.take_of_length_le (Nat.le_refl _),
      List.drop_append_of_le_length (Nat.le_refl _), List.drop_of_length_le (Nat.le_refl _),
      List.nil_append]
    cases hh : parseChunks rest <;> simp [hh]

theorem dropLast_concat_of_getLast? {l : List Nat} {b : Nat}
    (h : l.getLast? = some b) : l.dropLast ++ [b] = l := by
  match l with
  | [] => simp at h
  | x :: xs =>
    have hne : x :: xs ≠ [] := by simp
    have h2 : (x :: xs).getLast hne = b := by
      rw [List.getLast?_eq_getLast _ hne] at h
      exact Option.some_inj.mp h
    rw [← h2]
    exact List.dropLast_append_getLast hne

theorem write1_spec (s : Option WriteState) (out : List Nat) (b : Nat) (h : WSInv s) :
    ∃ (s1 : Option WriteState) (δ : List Nat) (cs1 : List WriteState),
      write1 ⟨s, out⟩ b = ⟨s1, out ++ δ⟩ ∧ WSInv s1 ∧ Emits δ cs1 ∧
      (∀ c ∈ cs1, ChunkWF c) ∧ dataOf cs1 ++ stateData s1 = stateData s ++ [b] := by
  match s with
  | none =>
    refine ⟨some (.Repeat 1 b), [], [], by simp [write1], by simp [WSInv], emits_nil, by simp, ?_⟩
    simp [dataOf, stateData, chunkData]
  | some (.Repeat len byte) =>
    by_cases h1 : len < 128 ∧ byte = b
    · refine ⟨some (.Repeat (len + 1) byte), [], [], by simp [write1, h1], by simp [WSInv]; omega,
        emits_nil, by simp, ?_⟩
      simp [dataOf, stateData, chunkData, List.replicate_succ', h1.2]
    · by_cases h2 : len = 1 ∧ byte ≠ b
      · refine ⟨some (.Literal [byte, b]), [], [], by simp [write1, h1, h2], by simp [WSInv],
          emits_nil, by simp, ?_⟩
        simp [dataOf, stateData, chunkData, h2.1]
      · refine ⟨some (.Repeat 1 b), chunkBytes (.Repeat len byte), [.Repeat len byte],
          by simp [write1, h1, h2], by simp [WSInv], emits_chunk h, ?_, ?_⟩
        · intro c hc
          simp at hc
          rw [hc]
          exact h
        · simp [dataOf, stateData, chunkData]
  | some (.Literal bytes) =>
    obtain ⟨hbl, hbu⟩ : 2 ≤ bytes.length ∧ bytes.length ≤ 129 := h
    by_cases h1 : 2 ≤ bytes.length ∧ bytes.getLast? = some b
    · by_cases h3 : 2 < bytes.length
      · refine ⟨some (.Repeat 2 b), chunkBytes (.Literal bytes.dropLast), [.Literal bytes.dropLast],
          by simp [write1, h1, h3], by simp [WSInv], emits_chunk ?_, ?_, ?_⟩
        · constructor <;> simp <;> omega
        · intro c hc
          simp at hc
          rw [hc]
          constructor <;> simp <;> omega
        · have hd : bytes.dropLast ++ [b] = bytes := dropLast_concat_of_getLast? h1.2
          have key : bytes.dropLast ++ List.replicate 2 b = bytes ++ [b] := by
            calc bytes.dropLast ++ List.replicate 2 b
                = (bytes.dropLast ++ [b]) ++ [b] := by
                  simp [List.replicate_succ, List.append_assoc]
              _ = bytes ++ [b] := by rw [hd]
          simpa [dataOf, stateData, chunkData] using key
      · have hlen2 : bytes.length = 2 := by omega
        obtain ⟨x, y, hxy⟩ := List.length_eq_two.mp hlen2
        subst hxy
        have hyb : y = b := by
          have := h1.2
          simp [List.getLast?] at this
          exact this
        refine ⟨some (.Repeat 2 b), chunkBytes (.Repeat 1 x), [.Repeat 1 x],
          by simp [write1, h1, h3], by simp [WSInv], emits_chunk (by constructor <;> simp), ?_, ?_⟩
        · intro c hc
          simp at hc
          rw [hc]
          constructor <;> simp
        · simp [dataOf, stateData, chunkData, hyb, List.replicate]
    · by_cases h2 : bytes.length < 129
      · refine ⟨some (.Literal (bytes ++ [b])), [], [], by simp [write1, h1, h2],
          by simp [WSInv]; omega, emits_nil, by simp, ?_⟩
        simp [dataOf, stateData, chunkData]
      · refine ⟨some (.Repeat 1 b), chunkBytes (.Literal bytes), [.Literal bytes],
          by simp [write1, h1, h2], by simp [WSInv], emits_chunk ⟨hbl, hbu⟩, ?_, ?_⟩
        · intro c hc
          simp at hc
          rw [hc]
          exact ⟨hbl, hbu⟩
        · simp [dataOf, stateData, chunkData]

theorem write_spec : ∀ (X : List Nat) (s : Option WriteState) (out : List Nat), WSInv s →
    ∃ (s' : Option WriteState) (Δ : List Nat) (cs : List WriteState),
      Encoder.write ⟨s, out⟩ X = ⟨s', out ++ Δ⟩ ∧ WSInv s' ∧ Emits Δ cs ∧
      (∀ c ∈ cs, ChunkWF c) ∧ dataOf cs ++ stateData s' = stateData s ++ X := by
  intro X
  induction X with
  | nil =>
    intro s out h
    exact ⟨s, [], [], by simp [Encoder.write], h, emits_nil, by simp, by simp [dataOf]⟩
  | cons b X' ih =>
    intro s out h
    obtain ⟨s1, δ, cs1, heq, hinv1, hem1, hwf1, hdata1⟩ := write1_spec s out b h
    obtain ⟨s', Δ', cs', heq', hinv', hem', hwf', hdata'⟩ := ih s1 (out ++ δ) hinv1
    refine ⟨s', δ ++ Δ', cs1 ++ cs', ?_, hinv', emits_append hem1 hem', ?_, ?_⟩
    · show (b :: X').foldl write1 ⟨s, out⟩ = _
      rw [List.foldl_cons]
      show Encoder.write (write1 ⟨s, out⟩ b) X' = _
      rw [heq, heq', List.append_assoc]
    · intro c hc
      rcases List.mem_append.mp hc with hc | hc
      · exact hwf1 c hc
      · exact hwf' c hc
    · rw [dataOf_append, List.append_assoc, hdata', ← List.append_assoc, hdata1,
        List.append_assoc, List.singleton_append]

theorem encode_parse (X : List Nat) :
    ∃ cs : List WriteState, parseChunks (encode X) = some cs ∧
      (∀ c ∈ cs, ChunkWF c) ∧ dataOf cs = X := by
  obtain ⟨s', Δ, cs, heq, hinv, hem, hwf, hdata⟩ := write_spec X none [] trivial
  have henc : encode X = Δ ++ flushBytes s' := by
    show (Encoder.new.write X).finalize = _
    show (Encoder.write ⟨none, []⟩ X).finalize = _
    rw [heq]
    simp [Encoder.finalize]
  match s' with
  | none =>
    refine ⟨cs, ?_, hwf, ?_⟩
    · rw [henc]
      have := hem []
      simpa [flushBytes, parseChunks_nil] using this
    · simpa [stateData] using hdata
  | some w =>
    have hwfw : ChunkWF w := hinv
    refine ⟨cs ++ [w], ?_, ?_, ?_⟩
    · rw [henc]
      have := (emits_append hem (emits_chunk hwfw)) []
      simpa [flushBytes, parseChunks_nil] using this
    · intro c hc
      rcases List.mem_append.mp hc with hc | hc
      · exact hwf c hc
      · rw [List.mem_singleton.mp hc]
        exact hwfw
    · rw [dataOf_append]
      simpa [dataOf, stateData] using hdata

theorem read_state_of_parse {c : Nat} {rest : List Nat} {cs : List WriteState}
    (h : parseChunks (c :: rest) = some cs) :
    ∃ (ch : WriteState) (cs' : List WriteState) (st : ReadState) (inp : List Nat),
      cs = ch :: cs' ∧ read_state (c :: rest) = .ok (some st, inp) ∧
      pendData (some st) = chunkData ch ∧ RSInv (some st) ∧
      parseChunks inp = some cs' := by
  rw [parseChunks_cons] at h
  by_cases hc : c < 128
  · simp only [hc, if_true] at h
    by_cases hlen : c + 2 ≤ rest.length
    · simp only [hlen, if_true] at h
      match hp : parseChunks (rest.drop (c + 2)) with
      | none => rw [hp] at h; simp at h
      | some cs' =>
        have h3 : WriteState.Literal (rest.take (c + 2)) :: cs' = cs := by
          rw [hp] at h
          simpa using h
        refine ⟨.Literal (rest.take (c + 2)), cs', .Literal (c + 2) 0 (rest.take (c + 2)),
          rest.drop (c + 2), h3.symm, ?_, ?_, ?_, hp⟩
        · simp [read_state, hc, hlen]
        · simp [pendData, chunkData]
        · constructor
          · omega
          · simp [List.length_take]
            omega
    · simp [hlen] at h
  · simp only [hc, if_false] at h
    match rest with
    | [] => exact Option.noConfusion h
    | b :: rest' =>
      have h2 : (parseChunks rest').map
          (fun cs => WriteState.Repeat ((c &&& 127) + 1) b :: cs) = some cs := h
      match hp : parseChunks rest' with
      | none => rw [hp] at h2; simp at h2
      | some cs' =>
        have h3 : WriteState.Repeat ((c &&& 127) + 1) b :: cs' = cs := by
          rw [hp] at h2
          simpa using h2
        refine ⟨.Repeat ((c &&& 127) + 1) b, cs', .Repeat ((c &&& 127) + 1) b, rest',
          h3.symm, ?_, ?_, ?_, hp⟩
        · simp [read_state, hc]
        · simp [pendData, chunkData]
        · simp [RSInv]

theorem readCore_spec (st : Option ReadState) (inp : List Nat) (cap : Nat)
    (cs : List WriteState) (hinv : RSInv st) (hnone : st = none → inp = [])
    (hp : parseChunks inp = some cs) (hcap : 0 < cap) :
    DecInv (Decoder.readCore st inp cap).2 ∧
    (Decoder.readCore st inp cap).1 =
      (pendData st ++ dataOf cs).take (Decoder.readCore st inp cap).1.length ∧
    dDen (Decoder.readCore st inp cap).2 =
      some ((pendData st ++ dataOf cs).drop (Decoder.readCore st inp cap).1.length) ∧
    ((Decoder.readCore st inp cap).1 = [] ↔ pendData st ++ dataOf cs = []) := by
  match st with
  | none =>
    have hi : inp = [] := hnone rfl
    subst hi
    have : cs = [] := by
      rw [parseChunks_nil] at hp
      exact (Option.some_inj.mp hp).symm
    subst this
    simp [Decoder.readCore, DecInv, RSInv, dDen, pendData, dataOf, parseChunks_nil]
  | some (.Repeat len byte) =>
    have hlen : 1 ≤ len := hinv
    simp only [Decoder.readCore]
    set tbw := min cap len with htbw
    have htbw1 : 1 ≤ tbw := by omega
    have htbwle : tbw ≤ len := by omega
    have hout_len : (List.replicate tbw byte).length = tbw := List.length_replicate tbw byte
    have htake : (pendData (some (.Repeat len byte)) ++ dataOf cs).take tbw =
        List.replicate tbw byte := by
      rw [List.take_append_of_le_length (by simp [pendData]; omega)]
      simp [pendData]
      omega
    have hdrop : (pendData (some (.Repeat len byte)) ++ dataOf cs).drop tbw =
        List.replicate (len - tbw) byte ++ dataOf cs := by
      rw [List.drop_append_of_le_length (by simp [pendData]; omega)]
      simp [pendData]
    by_cases hfin : len ≤ tbw
    · have hlt : tbw = len := by omega
      simp only [hfin, if_true]
      refine ⟨trivial, ?_, ?_, ?_⟩
      · rw [hout_len, htake]
      · rw [hout_len, hdrop, dDen]
        simp [hp, pendData, hlt]
      · constructor
        · intro hh
          have := congrArg List.length hh
          simp at this
          omega
        · intro hh
          have := congrArg List.length hh
          simp [pendData] at this
          omega
    · simp only [hfin, if_false]
      refine ⟨by simp [DecInv, RSInv]; omega, ?_, ?_, ?_⟩
      · rw [hout_len, htake]
      · rw [hout_len, dDen]
        simp only [hp, Option.map_some]
        rw [hdrop]
        simp [pendData]
      · constructor
        · intro hh
          have := congrArg List.length hh
          simp at this
          omega
        · intro hh
          have := congrArg List.length hh
          simp [pendData] at this
          omega
  | some (.Literal len pos bytes) =>
    obtain ⟨hpos, hblen⟩ : pos < len ∧ bytes.length = len := hinv
    simp only [Decoder.readCore]
    set tbw := min cap (len - pos) with htbw
    have htbw1 : 1 ≤ tbw := by omega
    have htbwle : tbw ≤ len - pos := by omega
    have hdp_len : (bytes.drop pos).length = len - pos := by simp [hblen]
    have hout_len : ((bytes.drop pos).take tbw).length = tbw := by
      simp [hdp_len]
      omega
    have htake : (pendData (some (.Literal len pos bytes)) ++ dataOf cs).take tbw =
        (bytes.drop pos).take tbw := by
      rw [List.take_append_of_le_length (by simp [pendData, hdp_len]; omega)]
      simp [pendData]
    have hdrop : (pendData (some (.Literal len pos bytes)) ++ dataOf cs).drop tbw =
        bytes.drop (pos + tbw) ++ dataOf cs := by
      rw [List.drop_append_of_le_length (by simp [pendData, hdp_len]; omega)]
      simp only [pendData]
      rw [List.drop_drop]
    by_cases hfin : len ≤ pos + tbw
    · simp only [hfin, if_true]
      refine ⟨trivial, ?_, ?_, ?_⟩
      · rw [hout_len, htake]
      · rw [hout_len, dDen]
        simp only [hp, Option.map_some]
        rw [hdrop]
        have : bytes.drop (pos + tbw) = [] := by
          apply List.drop_eq_nil_of_le
          omega
        simp [pendData, this]
      · constructor
        · intro hh
          have := congrArg List.length hh
          rw [hout_len] at this
          simp at this
          omega
        · intro hh
          have := congrArg List.length hh
          simp [pendData, hdp_len] at this
          omega
    · simp only [hfin, if_false]
      refine ⟨by simp [DecInv, RSInv, hblen]; omega, ?_, ?_, ?_⟩
      · rw [hout_len, htake]
      · rw [hout_len, dDen]
        simp only [hp, Option.map_some]
        rw [hdrop]
        simp [pendData]
      · constructor
        · intro hh
          have := congrArg List.length hh
          rw [hout_len] at this
          simp at this
          omega
        · intro hh
          have := congrArg List.length hh
          simp [pendData, hdp_len] at this
          omega

theorem read_spec (d : Decoder) (cap : Nat) (ys : List Nat)
    (hinv : DecInv d) (hden : dDen d = some ys) (hcap : 0 < cap) :
    ∃ (out : List Nat) (d' : Decoder),
      d.read cap = .ok (out, d') ∧ DecInv d' ∧ out = ys.take out.length ∧
      dDen d' = some (ys.drop out.length) ∧ (out = [] ↔ ys = []) := by
  match hd : d.state with
  | some st =>
    match hp : parseChunks d.input with
    | none => rw [dDen, hp] at hden; simp at hden
    | some cs =>
      have hys : ys = pendData (some st) ++ dataOf cs := by
        rw [dDen, hp, hd] at hden
        simpa using hden.symm
      have hinv' : RSInv (some st) := by rw [DecInv, hd] at hinv; exact hinv
      obtain ⟨h1, h2, h3, h4⟩ :=
        readCore_spec (some st) d.input cap cs hinv' (by simp) hp hcap
      refine ⟨(Decoder.readCore (some st) d.input cap).1,
        (Decoder.readCore (some st) d.input cap).2, ?_, h1, ?_, ?_, ?_⟩
      · rw [Decoder.read, hd]
      · rw [← hys] at h2; exact h2
      · rw [← hys] at h3; exact h3
      · rw [← hys] at h4; exact h4
  | none =>
    match hi : d.input with
    | [] =>
      have hys : ys = [] := by
        rw [dDen, hi, hd, parseChunks_nil] at hden
        simpa [pendData, dataOf] using hden.symm
      refine ⟨[], ⟨[], none⟩, ?_, trivial, by simp [hys], ?_, by simp [hys]⟩
      · rw [Decoder.read, hd, hi]
        rfl
      · simp [dDen, parseChunks_nil, pendData, dataOf, hys]
    | c :: rest =>
      match hp : parseChunks (c :: rest) with
      | none => rw [dDen, hi, hp] at hden; simp at hden
      | some cs =>
        have hys : ys = dataOf cs := by
          rw [dDen, hi, hp, hd] at hden
          simpa [pendData] using hden.symm
        obtain ⟨ch, cs', st, inp, hcs, hrs, hpend, hrsinv, hp'⟩ := read_state_of_parse hp
        obtain ⟨h1, h2, h3, h4⟩ :=
          readCore_spec (some st) inp cap cs' hrsinv (by simp) hp' hcap
        have hys2 : ys = pendData (some st) ++ dataOf cs' := by
          rw [hys, hcs, hpend]
          simp [dataOf]
        refine ⟨(Decoder.readCore (some st) inp cap).1,
          (Decoder.readCore (some st) inp cap).2, ?_, h1, ?_, ?_, ?_⟩
        · rw [Decoder.read, hd, hi, hrs]
        · rw [← hys2] at h2; exact h2
        · rw [← hys2] at h3; exact h3
        · rw [← hys2] at h4; exact h4

theorem drain_spec : ∀ (fuel : Nat) (ys : List Nat) (d : Decoder) (caps : Nat → Nat) (i : Nat),
    DecInv d → dDen d = some ys → ys.length < fuel → (∀ j, 0 < caps j) →
    drainFuel fuel caps i d = some ys := by
  intro fuel
  induction fuel with
  | zero => intro ys d caps i _ _ h _; omega
  | succ f ih =>
    intro ys d caps i hinv hden hlen hcaps
    obtain ⟨out, d', hread, hinv', htake, hden', hiff⟩ :=
      read_spec d (caps i) ys hinv hden (hcaps i)
    match hout : out with
    | [] =>
      have hys : ys = [] := hiff.mp rfl
      simp only [drainFuel, hread]
      rw [hys]
    | o :: out' =>
      have hne : ys ≠ [] := fun hh => List.cons_ne_nil o out' (hiff.mpr hh)
      have hrec : drainFuel f caps (i + 1) d' = some (ys.drop (o :: out').length) := by
        apply ih _ _ _ _ hinv' hden' _ hcaps
        have hlen1 : 1 ≤ (o :: out').length := by simp
        have := List.length_drop ((o :: out').length) ys
        have hyslen : 0 < ys.length := List.length_pos.mpr hne
        omega
      have hcat : (o :: out') ++ ys.drop (o :: out').length = ys := by
        conv_rhs => rw [← List.take_append_drop ((o :: out').length) ys, ← htake]
      simp only [drainFuel, hread]
      rw [hrec]
      simpa using hcat

theorem write_append (e : Encoder) (l1 l2 : List Nat) :
    e.write (l1 ++ l2) = (e.write l1).write l2 :=
  List.foldl_append write1 e l1 l2

theorem write_foldl_flatten (parts : List (List Nat)) : ∀ (e : Encoder),
    parts.foldl Encoder.write e = e.write parts.flatten := by
  induction parts with
  | nil => intro e; rfl
  | cons p parts ih =>
    intro e
    rw [List.foldl_cons, List.flatten_cons, write_append, ih]

theorem rep_grow : ∀ (m : Nat) (k : Nat) (b : Nat) (out : List Nat), k + m ≤ 128 → 1 ≤ k →
    Encoder.write ⟨some (.Repeat k b), out⟩ (List.replicate m b) =
      ⟨some (.Repeat (k + m) b), out⟩ := by
  intro m
  induction m with
  | zero => intro k b out _ _; rfl
  | succ m ih =>
    intro k b out hcap hk
    rw [List.replicate_succ]
    show Encoder.write (write1 ⟨some (.Repeat k b), out⟩ b) (List.replicate m b) = _
    have harm : write1 ⟨some (.Repeat k b), out⟩ b = ⟨some (.Repeat (k + 1) b), out⟩ := by
      simp [write1]
      omega
    rw [harm, ih (k + 1) b out (by omega) (by omega)]
    have : k + 1 + m = k + (m + 1) := by omega
    rw [this]

theorem lit_grow : ∀ (m : List Nat) (bytes : List Nat) (out : List Nat),
    2 ≤ bytes.length → bytes.length + m.length ≤ 129 →
    List.Chain' (· ≠ ·) (bytes ++ m) →
    Encoder.write ⟨some (.Literal bytes), out⟩ m = ⟨some (.Literal (bytes ++ m)), out⟩ := by
  intro m
  induction m with
  | nil => intro bytes out _ _ _; simp [Encoder.write]
  | cons b m' ih =>
    intro bytes out h2 hcap hchain
    have hbne : bytes ≠ [] := by
      intro hh
      rw [hh] at h2
      simp at h2
    have hlast : ∀ x ∈ bytes.getLast?, x ≠ b := by
      have := (List.chain'_append.mp hchain).2.2
      intro x hx
      exact this x hx b rfl
    have hlast2 : ¬(bytes.getLast? = some b) := by
      intro hh
      exact hlast b hh rfl
    show Encoder.write (write1 ⟨some (.Literal bytes), out⟩ b) m' = _
    have harm : write1 ⟨some (.Literal bytes), out⟩ b = ⟨some (.Literal (bytes ++ [b])), out⟩ := by
      simp only [write1]
      have hc1 : ¬(2 ≤ bytes.length ∧ bytes.getLast? = some b) := fun hh => hlast2 hh.2
      have hc2 : bytes.length < 129 := by
        simp only [List.length_cons] at hcap
        omega
      simp [hc1, hc2]
    rw [harm, ih (bytes ++ [b]) out (by simp; omega) (by simp at hcap ⊢; omega) ?_]
    · rw [List.append_assoc, List.singleton_append]
    · rw [List.append_assoc, List.singleton_append]
      exact hchain

theorem lit_run : ∀ (l : List Nat), 2 ≤ l.length → l.length ≤ 129 → List.Chain' (· ≠ ·) l →
    Encoder.new.write l = ⟨some (.Literal l), []⟩ := by
  intro l h2 hcap hchain
  match l with
  | x :: y :: t =>
    have hxy : x ≠ y := List.chain'_cons.mp (by simpa using hchain) |>.1
    show Encoder.write (write1 Encoder.new x) (y :: t) = _
    have h1 : write1 Encoder.new x = ⟨some (.Repeat 1 x), []⟩ := rfl
    rw [h1]
    show Encoder.write (write1 ⟨some (.Repeat 1 x), []⟩ y) t = _
    have h2' : write1 ⟨some (.Repeat 1 x), []⟩ y = ⟨some (.Literal [x, y]), []⟩ := by
      simp [write1, hxy]
    rw [h2']
    have := lit_grow t [x, y] [] (by simp) (by simp at hcap ⊢; omega)
      (by simpa using hchain)
    simpa using this

/-- Over the total list sink the fallible model coincides with the pure
one, so `write1F` is a conservative generalization of `write1`. -/
theorem write1F_listSink (st : Option WriteState) (out : List Nat) (b : Nat) :
    write1F listSink st out b = .ok ((write1 ⟨st, out⟩ b).state, (write1 ⟨st, out⟩ b).out) := by
  match st with
  | none => rfl
  | some (.Repeat len byte) =>
    by_cases h1 : len < 128 ∧ byte = b
    · simp [write1F, write1, h1]
    · by_cases h2 : len = 1 ∧ byte ≠ b
      · simp [write1F, write1, h1, h2]
      · simp [write1F, write1, h1, h2, write_stateF, listSink, chunkBytes]
  | some (.Literal bytes) =>
    by_cases h1 : 2 ≤ bytes.length ∧ bytes.getLast? = some b
    · by_cases h3 : 2 < bytes.length
      · simp [write1F, write1, h1, h3, write_stateF, listSink, chunkBytes]
      · simp [write1F, write1, h1, h3, write_stateF, listSink, chunkBytes]
    · by_cases h2 : bytes.length < 129
      · simp [write1F, write1, h1, h2]
      · simp [write1F, write1, h1, h2, write_stateF, listSink, chunkBytes]

/-- C1: Round trip — for every finite byte sequence X (including the empty
sequence), feeding X to a fresh Encoder, finalizing it, and draining a
fresh Decoder over the encoded bytes (pulling until a call returns 0
bytes, with any positive per-call buffer capacities) yields exactly X. -/
theorem c1_round_trip (X : List Nat) (caps : Nat → Nat) (h : ∀ i, 0 < caps i) :
    drainFuel (X.length + 1) caps 0 (Decoder.new (encode X)) = some X := by
  obtain ⟨cs, hp, _, hdata⟩ := encode_parse X
  apply drain_spec (X.length + 1) X (Decoder.new (encode X)) caps 0 trivial ?_ (by omega) h
  show (parseChunks (encode X)).map _ = _
  rw [hp]
  simp [Decoder.new, pendData, hdata]

/-- C1 witness: the round trip at X = [1, 1, 2] with capacity-1 pulls. -/
theorem c1_round_trip_witness :
    (∀ i : Nat, 0 < (fun _ : Nat => 1) i) ∧
    drainFuel 4 (fun _ : Nat => 1) 0 (Decoder.new (encode [1, 1, 2])) = some [1, 1, 2] :=
  ⟨fun _ => Nat.one_pos, c1_round_trip [1, 1, 2] (fun _ => 1) (fun _ => Nat.one_pos)⟩

/-- C2 evidence: on the one-byte stream [0x00] (control byte announcing a
2-byte literal, source exhausted before the payload) the decoder reaches
the `panic!("Unexpected EOF")` in `Decoder::read_state` — modelled as the
`ReadFault.panicUnexpectedEof` process abort — instead of surfacing a
recoverable MalformedStream error; likewise for a repeat chunk missing
its value byte ([0x80]) and a literal with a short payload ([0x00, 5]). -/
theorem c2_truncation_panics :
    (Decoder.new [0]).read 1 = .error .panicUnexpectedEof ∧
    (Decoder.new [128]).read 1 = .error .panicUnexpectedEof ∧
    (Decoder.new [0, 5]).read 1 = .error .panicUnexpectedEof :=
  ⟨rfl, rfl, rfl⟩

theorem readCore_fst_len (st : ReadState) (inp : List Nat) (cap : Nat)
    (hinv : RSInv (some st)) :
    (Decoder.readCore (some st) inp cap).1.length = min cap (pendData (some st)).length := by
  match st with
  | .Repeat len byte =>
    simp only [Decoder.readCore, pendData]
    by_cases hfin : len ≤ min cap len <;> simp [hfin]
  | .Literal len pos bytes =>
    obtain ⟨hpos, hblen⟩ : pos < len ∧ bytes.length = len := hinv
    simp only [Decoder.readCore, pendData]
    by_cases hfin : len ≤ pos + min cap (len - pos) <;> simp [hfin, hblen]

theorem read_state_fresh {input : List Nat} {st : Option ReadState} {inp : List Nat}
    (h : read_state input = .ok (st, inp)) :
    RSInv st ∧ (st = none → input = []) ∧ (input ≠ [] → ∃ st0, st = some st0 ∧
      1 ≤ (pendData (some st0)).length) := by
  match input with
  | [] =>
    have h2 : ((none : Option ReadState), ([] : List Nat)) = (st, inp) := by
      simpa [read_state] using h
    rw [Prod.mk.injEq] at h2
    rw [← h2.1]
    exact ⟨trivial, fun _ => rfl, fun hne => absurd rfl hne⟩
  | c :: rest =>
    simp only [read_state] at h
    by_cases hc : c < 128
    · simp only [hc, if_true] at h
      by_cases hlen : c + 2 ≤ rest.length
      · simp only [hlen, if_true] at h
        obtain ⟨hst, _⟩ : some (ReadState.Literal (c + 2) 0 (rest.take (c + 2))) = st ∧
            rest.drop (c + 2) = inp := by
          constructor
          · exact congrArg Prod.fst (Except.ok.inj h)
          · exact congrArg Prod.snd (Except.ok.inj h)
        rw [← hst]
        refine ⟨⟨by omega, by simp [List.length_take]; omega⟩, by simp, ?_⟩
        intro _
        refine ⟨_, rfl, ?_⟩
        simp [pendData, List.length_take]
        omega
      · simp [hlen] at h
    · simp only [hc, if_false] at h
      match rest with
      | [] => exact absurd h (by simp)
      | b :: rest' =>
        obtain ⟨hst, _⟩ : some (ReadState.Repeat ((c &&& 127) + 1) b) = st ∧ rest' = inp := by
          constructor
          · exact congrArg Prod.fst (Except.ok.inj h)
          · exact congrArg Prod.snd (Except.ok.inj h)
        rw [← hst]
        refine ⟨by simp [RSInv], by simp, ?_⟩
        intro _
        refine ⟨_, rfl, ?_⟩
        simp [pendData]

/-- C3 (amended: positive capacity): for every well-formed decoder state
and every positive capacity, a non-error pull returns 0 bytes exactly
when the source is exhausted at a chunk boundary (all input consumed and
no partial chunk pending); in every other non-error case it returns
between 1 and `cap` bytes. -/
theorem c3_read_zero_iff_clean_eof (d : Decoder) (cap : Nat) (out : List Nat) (d' : Decoder)
    (hinv : DecInv d) (hcap : 0 < cap) (hread : d.read cap = .ok (out, d')) :
    (out = [] ↔ (d.input = [] ∧ d.state = none)) ∧ out.length ≤ cap := by
  match hd : d.state with
  | some st =>
    rw [Decoder.read, hd] at hread
    have hout : out = (Decoder.readCore (some st) d.input cap).1 :=
      (congrArg Prod.fst (Except.ok.inj hread)).symm
    have hinv' : RSInv (some st) := by rw [DecInv, hd] at hinv; exact hinv
    have hlen := readCore_fst_len st d.input cap hinv'
    have hpend : 1 ≤ (pendData (some st)).length := by
      match st with
      | .Repeat len byte =>
        have : 1 ≤ len := hinv'
        simp [pendData]
        omega
      | .Literal len pos bytes =>
        obtain ⟨hpos, hblen⟩ : pos < len ∧ bytes.length = len := hinv'
        simp [pendData, hblen]
        omega
    constructor
    · constructor
      · intro hh
        rw [hh] at hout
        have := hout ▸ hlen
        simp at this
        omega
      · intro hh
        exact absurd hh.2 (by simp)
    · rw [hout, hlen]
      omega
  | none =>
    rw [Decoder.read, hd] at hread
    match hrs : read_state d.input with
    | .error e => rw [hrs] at hread; exact absurd hread (by simp)
    | .ok (st, inp) =>
      rw [hrs] at hread
      obtain ⟨hrsinv, hnone, hne⟩ := read_state_fresh hrs
      have hout : out = (Decoder.readCore st inp cap).1 :=
        (congrArg Prod.fst (Except.ok.inj hread)).symm
      match hi : d.input with
      | [] =>
        have hpr : ((none : Option ReadState), ([] : List Nat)) = (st, inp) := by
          rw [hi] at hrs
          simpa [read_state] using hrs
        rw [Prod.mk.injEq] at hpr
        have hst : st = none := hpr.1.symm
        rw [hst] at hout
        refine ⟨?_, ?_⟩
        · simp [hout, Decoder.readCore]
        · simp [hout, Decoder.readCore]
      | c :: rest =>
        obtain ⟨st0, hst0, hpend⟩ := hne (by rw [hi]; simp)
        rw [hst0] at hout
        have hlen := readCore_fst_len st0 inp cap (hst0 ▸ hrsinv)
        constructor
        · constructor
          · intro hh
            rw [hh] at hout
            have := hout ▸ hlen
            simp at this
            omega
          · intro hh
            exact absurd hh.1 (by simp)
        · rw [hout, hlen]
          omega

/-- C3 witness: the amended theorem instantiated at a decoder holding the
fully-available chunk [0x80, 5] and capacity 4: the pull returns the one
decoded byte [5], which is nonempty and within capacity. -/
theorem c3_read_zero_iff_clean_eof_witness :
    (([5] : List Nat) = [] ↔ ((Decoder.new [128, 5]).input = [] ∧ (Decoder.new [128, 5]).state = none)) ∧
    ([5] : List Nat).length ≤ 4 :=
  c3_read_zero_iff_clean_eof (Decoder.new [128, 5]) 4 [5] ⟨[], none⟩ trivial (by omega) rfl

/-- C3 counterexample: with capacity 0 the claim fails — a pull on a fresh
decoder whose source still holds the full chunk [0x80, 5] returns 0 bytes
(and even consumes the chunk header into the cursor) although the source
is not exhausted at a chunk boundary. -/
theorem c3_counterexample :
    (Decoder.new [128, 5]).read 0 = .ok ([], ⟨[], some (.Repeat 1 5)⟩) ∧
    (Decoder.new [128, 5]).input ≠ [] :=
  ⟨rfl, by simp [Decoder.new]⟩

theorem rep_run (b : Nat) (n : Nat) (h1 : 1 ≤ n) (h2 : n ≤ 128) :
    Encoder.new.write (List.replicate n b) = ⟨some (.Repeat n b), []⟩ := by
  match n with
  | 0 => omega
  | n + 1 =>
    rw [List.replicate_succ]
    show Encoder.write ⟨some (.Repeat 1 b), []⟩ (List.replicate n b) = _
    rw [rep_grow n 1 b [] (by omega) (by omega)]
    have : 1 + n = n + 1 := by omega
    rw [this]

/-- C4 (amended): a run of exactly 128 identical bytes encodes to one
Repeat chunk; 129 identical bytes encode to a 128-run chunk plus a 1-run
chunk; a literal span of exactly 129 bytes with no two adjacent bytes
equal encodes to one Literal chunk; 130 such distinct-pattern bytes
(written as a 129-byte span f plus one final byte z) split into the
129-byte Literal chunk for f followed by a count-1 REPEAT chunk for z
(not a second Literal chunk); and encode of 300 copies of byte 10 yields
exactly [0xFF,10], [0xFF,10], [0x80|43,10]. -/
theorem c4_boundary_exactness :
    (∀ b : Nat, encode (List.replicate 128 b) = [255, b]) ∧
    (∀ b : Nat, encode (List.replicate 129 b) = [255, b, 128, b]) ∧
    (∀ l : List Nat, l.length = 129 → List.Chain' (· ≠ ·) l → encode l = 127 :: l) ∧
    (∀ (f : List Nat) (z : Nat), f.length = 129 → List.Chain' (· ≠ ·) (f ++ [z]) →
      encode (f ++ [z]) = (127 :: f) ++ [128, z]) ∧
    encode (List.replicate 300 10) = [255, 10, 255, 10, 171, 10] := by
  refine ⟨?_, ?_, ?_, ?_, ?_⟩
  · intro b
    show (Encoder.new.write (List.replicate 128 b)).finalize = _
    rw [rep_run b 128 (by omega) (by omega)]
    rfl
  · intro b
    show (Encoder.new.write (List.replicate 129 b)).finalize = _
    have h129 : List.replicate 129 b = List.replicate 128 b ++ [b] :=
      List.replicate_succ' 128 b
    rw [h129, write_append, rep_run b 128 (by omega) (by omega)]
    show (write1 ⟨some (.Repeat 128 b), []⟩ b).finalize = _
    have harm : write1 ⟨some (.Repeat 128 b), []⟩ b =
        ⟨some (.Repeat 1 b), [] ++ chunkBytes (.Repeat 128 b)⟩ := by
      simp [write1]
    rw [harm]
    rfl
  · intro l hlen hchain
    show (Encoder.new.write l).finalize = _
    rw [lit_run l (by omega) (by omega) hchain]
    show (l.length - 2) :: l = _
    rw [hlen]
  · intro f z hlen hchain
    have hchains := List.chain'_append.mp hchain
    have hfne : f ≠ [] := by
      intro hh
      rw [hh] at hlen
      simp at hlen
    have hlast : ¬(f.getLast? = some z) := by
      intro hh
      exact hchains.2.2 z hh z rfl rfl
    show (Encoder.new.write (f ++ [z])).finalize = _
    rw [write_append, lit_run f (by omega) (by omega) hchains.1]
    show (write1 ⟨some (.Literal f), []⟩ z).finalize = _
    have harm : write1 ⟨some (.Literal f), []⟩ z =
        ⟨some (.Repeat 1 z), [] ++ chunkBytes (.Literal f)⟩ := by
      simp only [write1]
      have hc1 : ¬(2 ≤ f.length ∧ f.getLast? = some z) := fun hh => hlast hh.2
      have hc2 : ¬(f.length < 129) := by omega
      simp [hc1, hc2]
    rw [harm]
    show ([] ++ chunkBytes (.Literal f)) ++ chunkBytes (.Repeat 1 z) = _
    simp [chunkBytes, hlen]
  · show (Encoder.new.write (List.replicate 300 10)).finalize = _
    have h300 : List.replicate 300 10 =
        (List.replicate 128 10 ++ List.replicate 128 10) ++ List.replicate 44 10 := by
      rw [← List.replicate_add, ← List.replicate_add]
    rw [h300, write_append, write_append, rep_run 10 128 (by omega) (by omega)]
    have hflush : ∀ out : List Nat, Encoder.write ⟨some (.Repeat 128 10), out⟩
        (List.replicate 128 10) = ⟨some (.Repeat 128 10), out ++ [255, 10]⟩ := by
      intro out
      have h128 : (128 : Nat) = 1 + 127 := by omega
      rw [h128, List.replicate_add]
      rw [write_append]
      have harm : Encoder.write ⟨some (.Repeat 128 10), out⟩ (List.replicate 1 10) =
          ⟨some (.Repeat 1 10), out ++ [255, 10]⟩ := by
        show write1 ⟨some (.Repeat 128 10), out⟩ 10 = _
        simp [write1, chunkBytes]
      rw [harm, rep_grow 127 1 10 (out ++ [255, 10]) (by omega) (by omega)]
    rw [hflush []]
    have hlast44 : Encoder.write ⟨some (.Repeat 128 10), [] ++ [255, 10]⟩
        (List.replicate 44 10) = ⟨some (.Repeat 44 10), ([] ++ [255, 10]) ++ [255, 10]⟩ := by
      have h44 : (44 : Nat) = 1 + 43 := by omega
      rw [h44, List.replicate_add, write_append]
      have harm : Encoder.write ⟨some (.Repeat 128 10), [] ++ [255, 10]⟩
          (List.replicate 1 10) = ⟨some (.Repeat 1 10), ([] ++ [255, 10]) ++ [255, 10]⟩ := by
        show write1 ⟨some (.Repeat 128 10), [] ++ [255, 10]⟩ 10 = _
        simp [write1, chunkBytes]
      rw [harm, rep_grow 43 1 10 (([] ++ [255, 10]) ++ [255, 10]) (by omega) (by omega)]
    rw [hlast44]
    rfl

/-- C4 counterexample: encoding the 130-byte alternating pattern
0,1,0,1,… does NOT produce two Literal chunks as the claim states — the
encoded stream parses as a Literal chunk followed by a Repeat chunk
(kinds [true, false], not [true, true]). -/
theorem c4_counterexample :
    (parseChunks (encode alt130)).map (List.map chunkIsLit) = some [true, false] ∧
    (parseChunks (encode alt130)).map (List.map chunkIsLit) ≠ some [true, true] := by
  constructor
  · set_option maxRecDepth 8000 in decide
  · set_option maxRecDepth 8000 in decide

/-- C4 witness: the amended theorem instantiated at the strictly
ascending spans `List.range 129` (129 bytes, one Literal chunk) and
`List.range 129 ++ [0]` (130 bytes, Literal chunk + count-1 Repeat
chunk), and at the 128/129/300 identical-byte runs. -/
theorem c4_boundary_exactness_witness :
    encode (List.replicate 128 7) = [255, 7] ∧
    encode (List.replicate 129 7) = [255, 7, 128, 7] ∧
    encode (List.range 129) = 127 :: List.range 129 ∧
    encode (List.range 129 ++ [0]) = (127 :: List.range 129) ++ [128, 0] := by
  have hchain : List.Chain' (· ≠ ·) (List.range 129) := by
    have h : (129 : Nat) = 128 + 1 := rfl
    rw [h, List.chain'_range_succ]
    intro m _
    omega
  have hchain2 : List.Chain' (· ≠ ·) (List.range 129 ++ [0]) := by
    rw [List.chain'_append]
    refine ⟨hchain, by simp, ?_⟩
    intro x hx y hy
    have h : (129 : Nat) = 128 + 1 := rfl
    rw [h, List.range_succ] at hx
    have hx' : 128 = x := by simpa using hx
    have hy' : 0 = y := by simpa using hy
    omega
  exact ⟨c4_boundary_exactness.1 7, c4_boundary_exactness.2.1 7,
    c4_boundary_exactness.2.2.1 (List.range 129) (by simp) hchain,
    c4_boundary_exactness.2.2.2.1 (List.range 129) 0 (by simp) hchain2⟩

/-- C5: wire emission — flushing a pending `Repeat{value, count}` writes
the single control byte `0x80 | (count-1)` followed by the one data byte
`value`; flushing a pending `Literal{bytes, len}` writes the single
control byte `len - 2` (top bit clear) followed by the `len` raw bytes;
consequently encoding the one-byte input [5] and finalizing yields
exactly [0x80, 5]. -/
theorem c5_wire_emission :
    (∀ (len byte : Nat) (out : List Nat),
      Encoder.write_state ⟨some (.Repeat len byte), out⟩ =
        ⟨none, out ++ [128 ||| (len - 1), byte]⟩) ∧
    (∀ (bytes out : List Nat),
      Encoder.write_state ⟨some (.Literal bytes), out⟩ =
        ⟨none, out ++ (bytes.length - 2) :: bytes⟩) ∧
    encode [5] = [128, 5] :=
  ⟨fun _ _ _ => rfl, fun _ _ => rfl, rfl⟩

/-- C6: feed granularity independence — feeding the consecutive
sub-slices of any partition of X through separate write calls leaves the
encoder (accumulator state and bytes written to the sink) in exactly the
same state as one bulk write of X, and therefore the finalized output is
identical. -/
theorem c6_feed_granularity (e : Encoder) (parts : List (List Nat)) :
    parts.foldl Encoder.write e = e.write parts.flatten ∧
    (parts.foldl Encoder.write e).finalize = (e.write parts.flatten).finalize := by
  have h := write_foldl_flatten parts e
  exact ⟨h, by rw [h]⟩

/-- C7: chunk invariant — for any sequence of feed calls on a fresh
encoder followed by finalize, the bytes handed to the sink parse as a
sequence of chunks each of which is a Repeat with count in 1..=128 or a
Literal with length in 2..=129; no under-length literal, no zero-count
repeat, and no chunk beyond the caps is ever emitted (hence no
CapacityExceeded condition is observable). -/
theorem c7_chunk_invariant (parts : List (List Nat)) :
    ∃ cs : List WriteState,
      parseChunks ((parts.foldl Encoder.write Encoder.new).finalize) = some cs ∧
      ∀ c ∈ cs, ChunkWF c := by
  rw [write_foldl_flatten]
  obtain ⟨cs, hp, hwf, _⟩ := encode_parse parts.flatten
  exact ⟨cs, hp, hwf⟩

/-- C7 witness: the chunk invariant instantiated at the feed sequence
[[5], [5, 6]]. -/
theorem c7_chunk_invariant_witness :
    ∃ cs : List WriteState,
      parseChunks ((([[5], [5, 6]] : List (List Nat)).foldl Encoder.write
        Encoder.new).finalize) = some cs ∧
      ∀ c ∈ cs, ChunkWF c :=
  c7_chunk_invariant [[5], [5, 6]]

theorem write_stateF_err {σ : Type} (w : σ → List Nat → Option σ) (st : Option WriteState)
    (s : σ) (st0 : Option WriteState) (s0 : σ)
    (h : write_stateF w st s = .error (st0, s0)) : st0 = none := by
  match st with
  | none => exact absurd h (by simp [write_stateF])
  | some (.Repeat len byte) =>
    match hw : w s [128 ||| (len - 1), byte] with
    | some s' =>
      have hval : write_stateF w (some (.Repeat len byte)) s = .ok (none, s') := by
        simp [write_stateF, hw]
      rw [hval] at h
      exact absurd h (by simp)
    | none =>
      have hval : write_stateF w (some (.Repeat len byte)) s = .error (none, s) := by
        simp [write_stateF, hw]
      rw [hval] at h
      have hpr : ((none : Option WriteState), s) = (st0, s0) := Except.error.inj h
      have hfst : (none : Option WriteState) = st0 := congrArg Prod.fst hpr
      exact hfst.symm
  | some (.Literal bytes) =>
    match hw : w s [bytes.length - 2] with
    | none =>
      have hval : write_stateF w (some (.Literal bytes)) s = .error (none, s) := by
        simp [write_stateF, hw]
      rw [hval] at h
      have hpr : ((none : Option WriteState), s) = (st0, s0) := Except.error.inj h
      have hfst : (none : Option WriteState) = st0 := congrArg Prod.fst hpr
      exact hfst.symm
    | some s1 =>
      match hw2 : w s1 bytes with
      | none =>
        have hval : write_stateF w (some (.Literal bytes)) s = .error (none, s1) := by
          simp [write_stateF, hw, hw2]
        rw [hval] at h
        have hpr : ((none : Option WriteState), s1) = (st0, s0) := Except.error.inj h
        have hfst : (none : Option WriteState) = st0 := congrArg Prod.fst hpr
        exact hfst.symm
      | some s2 =>
        have hval : write_stateF w (some (.Literal bytes)) s = .ok (none, s2) := by
          simp [write_stateF, hw, hw2]
        rw [hval] at h
        exact absurd h (by simp)

/-- C8: rule-4 failure ordering — when the last byte of a pending literal
equals the new input byte, the accumulator is mutated before the flush of
the displaced chunk is attempted (the chunk handed to the sink is the
shrunk literal, or the `Repeat{1, bytes[0]}` a 2-byte literal degenerates
to — not the pre-call literal), so if that sink write fails the error
reaches the caller with the accumulator already taken (`Empty`), i.e. the
encoder's visible state has advanced past the chunk that failed to
persist and the pre-call accumulator state is not left intact. -/
theorem c8_rule4_failure_ordering {σ : Type} (w : σ → List Nat → Option σ) (s : σ)
    (bytes : List Nat) (b : Nat) (st' : Option WriteState) (s' : σ)
    (h2 : 2 ≤ bytes.length) (hlast : bytes.getLast? = some b)
    (herr : write1F w (some (.Literal bytes)) s b = .error (st', s')) :
    st' = none ∧ st' ≠ some (.Literal bytes) ∧
    write_stateF w (some (if 2 < bytes.length then .Literal bytes.dropLast
      else .Repeat 1 (bytes.headD 0))) s = .error (st', s') := by
  rw [write1F] at herr
  have hcond : 2 ≤ bytes.length ∧ bytes.getLast? = some b := ⟨h2, hlast⟩
  rw [if_pos hcond] at herr
  match hws : write_stateF w (some (if 2 < bytes.length then WriteState.Literal bytes.dropLast
      else WriteState.Repeat 1 (bytes.headD 0))) s with
  | .ok (r1, r2) =>
    rw [hws] at herr
    exact absurd herr (by simp)
  | .error (r1, r2) =>
    rw [hws] at herr
    simp at herr
    have hr1 : r1 = none := write_stateF_err w _ s r1 r2 hws
    refine ⟨?_, ?_, ?_⟩
    · rw [← herr.1, hr1]
    · rw [← herr.1, hr1]
      simp
    · rw [herr.1, herr.2]

/-- C8 witness: the failure ordering at the 2-byte literal [7, 5] fed the
byte 5 over a sink that always fails: the accumulator afterwards is
`none`, not the pre-call literal, and the chunk whose flush failed was
the `Repeat{1, 7}` the literal degenerated to. -/
theorem c8_rule4_failure_ordering_witness :
    (none : Option WriteState) = none ∧
    (none : Option WriteState) ≠ some (.Literal [7, 5]) ∧
    write_stateF (fun (_ : Unit) _ => none)
      (some (if 2 < ([7, 5] : List Nat).length then WriteState.Literal ([7, 5] : List Nat).dropLast
        else .Repeat 1 (([7, 5] : List Nat).headD 0))) () = .error (none, ()) :=
  c8_rule4_failure_ordering (fun (_ : Unit) _ => none) () [7, 5] 5 none ()
    (by decide) rfl rfl

/-- C9: idempotent finalize — `Encoder::finalize` takes the encoder by
value, so a literal second call is already rejected at compile time (the
"programming error" signal); modelling a second finalize as re-flushing
the already-flushed encoder, it writes no additional bytes to the sink
and cannot fail: flushing is idempotent and the finalized output is
unchanged. -/
theorem c9_finalize_idempotent (e : Encoder) :
    (Encoder.write_state e).finalize = e.finalize ∧
    Encoder.write_state (Encoder.write_state e) = Encoder.write_state e := by
  constructor
  · simp [Encoder.write_state, Encoder.finalize, flushBytes]
  · simp [Encoder.write_state, flushBytes]

/-- C10: implicit encoder safety — after any sequence of write calls on a
fresh encoder the accumulator satisfies `WSInv` (Repeat count in 1..=128,
Literal length in 2..=129); consequently, in the Rust code, the
literal-buffer accesses `bytes[len]` (performed only when `len < 129 <
130`) and `bytes[len - 1]` (with `len ≤ 129`, so `len - 1 ≤ 128 < 130`)
are in bounds of the 130-byte array, and the control-byte subtractions
`len - 1` (since `len ≥ 1`) and `len - 2` (since `len ≥ 2`) in
`write_state` never underflow. -/
theorem c10_encoder_state_safety (parts : List (List Nat)) :
    WSInv ((parts.foldl Encoder.write Encoder.new).state) ∧
    (∀ bytes : List Nat, (parts.foldl Encoder.write Encoder.new).state =
      some (.Literal bytes) →
      2 ≤ bytes.length ∧ bytes.length < 130 ∧ bytes.length - 1 < 130) ∧
    (∀ (len byte : Nat), (parts.foldl Encoder.write Encoder.new).state =
      some (.Repeat len byte) → 1 ≤ len ∧ len - 1 < 128) := by
  rw [write_foldl_flatten]
  obtain ⟨s', Δ, cs, heq, hinv, _, _, _⟩ := write_spec parts.flatten none [] trivial
  have hst : (Encoder.new.write parts.flatten).state = s' := by
    show (Encoder.write ⟨none, []⟩ parts.flatten).state = s'
    rw [heq]
  rw [hst]
  refine ⟨hinv, ?_, ?_⟩
  · intro bytes hb
    rw [hb] at hinv
    obtain ⟨hl, hu⟩ : 2 ≤ bytes.length ∧ bytes.length ≤ 129 := hinv
    exact ⟨hl, by omega, by omega⟩
  · intro len byte hb
    rw [hb] at hinv
    obtain ⟨hl, hu⟩ : 1 ≤ len ∧ len ≤ 128 := hinv
    exact ⟨hl, by omega⟩

/-- C10 witness: the safety statement instantiated at the feed sequence
[[1], [2]], whose reachable accumulator is the literal [1, 2]. -/
theorem c10_encoder_state_safety_witness :
    WSInv ((([[1], [2]] : List (List Nat)).foldl Encoder.write Encoder.new).state) ∧
    (∀ bytes : List Nat, (([[1], [2]] : List (List Nat)).foldl Encoder.write
      Encoder.new).state = some (.Literal bytes) →
      2 ≤ bytes.length ∧ bytes.length < 130 ∧ bytes.length - 1 < 130) ∧
    (∀ (len byte : Nat), (([[1], [2]] : List (List Nat)).foldl Encoder.write
      Encoder.new).state = some (.Repeat len byte) → 1 ≤ len ∧ len - 1 < 128) :=
  c10_encoder_state_safety [[1], [2]]
